import Mathlib

/-!
Verification of the tabular reinforcement-learning core: state
discretization, epsilon-greedy / double-table action selection, action
de-discretization, epsilon decay, the Double Q-Learning and first-visit
Monte Carlo update rules, and value-table serialization.

Python floats and ints are modelled as rationals (`ℚ`); Python's numeric
equality between ints and floats is rational equality.  Dictionaries with
a zero-vector default (`defaultdict(lambda: np.zeros(n))`) are modelled
either as total functions with an explicit default read, or — where the
code checks key membership or iterates entries — as partial maps /
association lists.
-/

namespace RLBase

/-- Discretized state key: the 4-tuple of bucket indices
(cart position, pole angle, cart velocity, pole angular velocity)
returned by `discretize_state`. -/
abbrev Key := ℕ × ℕ × ℕ × ℕ

/-- Raw 4-scalar observation (cart position, pole angle, cart velocity,
pole angular velocity). -/
abbrev Obs := ℚ × ℚ × ℚ × ℚ

/-- Model of `torch.clip(v, lo, hi)`: clamp `v` into `[lo, hi]`. -/
def clip (v lo hi : ℚ) : ℚ := min (max v lo) hi

/-- Model of `torch.linspace(lo, hi, steps)`: `steps` evenly spaced points
from `lo` to `hi` inclusive (a single point `lo` when `steps = 1`). -/
def linspace (lo hi : ℚ) (steps : ℕ) : List ℚ :=
  if steps = 1 then [lo]
  else (List.range steps).map (fun i : ℕ => lo + (i : ℚ) * (hi - lo) / ((steps : ℚ) - 1))

/-- Model of `torch.bucketize(v, boundaries)` with the default
`right = False`: for sorted boundaries it returns the smallest index `i`
with `v ≤ boundaries[i]` (or the length when none), i.e. the number of
boundaries strictly below `v`. -/
def bucketize (v : ℚ) (boundaries : List ℚ) : ℕ :=
  boundaries.countP (fun e => e < v)

/-- One dimension of `BaseAlgorithm.discretize_state`: clip the raw value
into `[-bound, bound]`, build `bins` linspace edges over the same range,
and bucketize the clipped value. -/
def discretize_dim (bound : ℚ) (bins : ℕ) (v : ℚ) : ℕ :=
  bucketize (clip v (-bound) bound) (linspace (-bound) bound bins)

/-- Model of `BaseAlgorithm.discretize_state`: per-dimension clip +
bucketize with physical bounds 4.0 (cart position), `pole_bound`
(the float value of `np.deg2rad(30.0)`, kept abstract since it is not a
nice rational), and 15.0 for both velocities; `w` holds the four
configured bin counts `discretize_state_weight`. -/
def discretize_state (pole_bound : ℚ) (w : ℕ × ℕ × ℕ × ℕ) (obs : Obs) : Key :=
  (discretize_dim 4 w.1 obs.1,
   discretize_dim pole_bound w.2.1 obs.2.1,
   discretize_dim 15 w.2.2.1 obs.2.2.1,
   discretize_dim 15 w.2.2.2 obs.2.2.2)

/-- Model of `np.argmax` over a vector: index of the first occurrence of
the maximum (0 on the empty list, which numpy instead rejects). -/
def npArgmaxAux : List ℚ → ℕ → ℚ → ℕ → ℕ
  | [], bi, _, _ => bi
  | x :: xs, bi, bv, i => if bv < x then npArgmaxAux xs i x (i + 1) else npArgmaxAux xs bi bv (i + 1)

/-- First index attaining the maximum of the list (`np.argmax`). -/
def npArgmax : List ℚ → ℕ
  | [] => 0
  | x :: xs => npArgmaxAux xs 0 x 1

/-- Model of `np.max` over a vector (0 on the empty list, which numpy
instead rejects; all vectors in the tables have positive length). -/
def listMax : List ℚ → ℚ
  | [] => 0
  | x :: xs => xs.foldl max x

/-- Model of `BaseAlgorithm.mapping_action`: map a discrete action index
to a continuous value in `[action_min, action_max]`. -/
def mapping_action (num_of_action : ℕ) (action_min action_max : ℚ) (action : ℕ) : ℚ :=
  if num_of_action = 1 then action_min
  else action_min + ((action : ℚ) / ((num_of_action : ℚ) - 1)) * (action_max - action_min)

/-- Model of `BaseAlgorithm.decay_epsilon`:
`epsilon ← max(epsilon * epsilon_decay, final_epsilon)`. -/
def decay_epsilon (epsilon_decay final_epsilon epsilon : ℚ) : ℚ :=
  max (epsilon * epsilon_decay) final_epsilon

/-- `n` successive `decay_epsilon` calls from a starting epsilon. -/
def decayIter (epsilon_decay final_epsilon : ℚ) : ℕ → ℚ → ℚ
  | 0, eps => eps
  | n + 1, eps => decayIter epsilon_decay final_epsilon n (decay_epsilon epsilon_decay final_epsilon eps)

/-- Read the zero-defaulted row of a table (`defaultdict(lambda:
np.zeros(num_of_action))[k]`): the stored vector, or a zero vector of
length `num_of_action` when the key is absent. -/
def trow (num_of_action : ℕ) (t : Key → Option (List ℚ)) (k : Key) : List ℚ :=
  (t k).getD (List.replicate num_of_action 0)

/-- Store a row under a key (dictionary assignment). -/
def tupdate (t : Key → Option (List ℚ)) (k : Key) (row : List ℚ) : Key → Option (List ℚ) :=
  fun k' => if k' = k then some row else t k'

/-- Exploitation branch of `BaseAlgorithm.get_discretize_action` for
Double Q-Learning (the branch taken when the epsilon draw fails): read
both tables' rows for the state key, take each row's own `np.argmax`,
and return the first table's choice when `qa[action_from_q1] >=
qb[action_from_q2]`, the second table's choice otherwise. -/
def dq_select_exploit (num_of_action : ℕ)
    (qa_values qb_values : Key → Option (List ℚ)) (obs_dis : Key) : ℕ :=
  let qa := trow num_of_action qa_values obs_dis
  let qb := trow num_of_action qb_values obs_dis
  let action_from_q1 := npArgmax qa
  let action_from_q2 := npArgmax qb
  if qb.getD action_from_q2 0 ≤ qa.getD action_from_q1 0 then action_from_q1
  else action_from_q2

/-- Bootstrap value `np.max(table[next_obs]) if next_obs in table else 0`
used by `Double_Q_Learning.update`. -/
def optMax : Option (List ℚ) → ℚ
  | some row => listMax row
  | none => 0

/-- Value of one `(state, action)` cell of a total table. -/
def fval (t : Key → List ℚ) (k : Key) (a : ℕ) : ℚ := (t k).getD a 0

/-- Mutable state of a `Double_Q_Learning` instance: the two tables, the
toggle, and the configuration fields its `update` reads.  Tables are
partial maps because the code tests key membership (`next_obs in
self.qb_values`) before taking the max. -/
structure DQModel where
  num_of_action : ℕ
  lr : ℚ
  discount_factor : ℚ
  pole_bound : ℚ
  discretize_state_weight : ℕ × ℕ × ℕ × ℕ
  qa_values : Key → Option (List ℚ)
  qb_values : Key → Option (List ℚ)
  check_update : Bool

/-- Model of `Double_Q_Learning.update`: discretize both observations;
when `check_update` holds, update `qa_values[obs][action]` toward
`reward + γ * max(qb_values[next_obs])` (0 when `next_obs` is absent
from `qb_values`), otherwise the symmetric update of `qb_values`;
finally negate the toggle. -/
def DQ_update (m : DQModel) (rawObs : Obs) (action : ℕ) (reward : ℚ)
    (rawNext : Obs) : DQModel :=
  let obs := discretize_state m.pole_bound m.discretize_state_weight rawObs
  let next_obs := discretize_state m.pole_bound m.discretize_state_weight rawNext
  if m.check_update then
    let best_q_b := optMax (m.qb_values next_obs)
    let row := trow m.num_of_action m.qa_values obs
    let old := row.getD action 0
    { m with
      qa_values := tupdate m.qa_values obs
        (row.set action (old + m.lr * (reward + m.discount_factor * best_q_b - old))),
      check_update := !m.check_update }
  else
    let best_q_a := optMax (m.qa_values next_obs)
    let row := trow m.num_of_action m.qb_values obs
    let old := row.getD action 0
    { m with
      qb_values := tupdate m.qb_values obs
        (row.set action (old + m.lr * (reward + m.discount_factor * best_q_a - old))),
      check_update := !m.check_update }

/-- Mutable state of an `MC` (first-visit Monte Carlo) instance: the
value and count tables (total functions with zero-vector default, since
`MC.update` never tests key membership), the three parallel episode
histories, and the configuration fields `update` reads.  Visit counts
are rationals because `n_values` rows are numpy float arrays. -/
structure MCModel where
  num_of_action : ℕ
  lr : ℚ
  discount_factor : ℚ
  pole_bound : ℚ
  discretize_state_weight : ℕ × ℕ × ℕ × ℕ
  q_values : Key → List ℚ
  n_values : Key → List ℚ
  obs_hist : List Key
  action_hist : List ℕ
  reward_hist : List ℚ

/-- Update a total table at one key. -/
def fupdate (t : Key → List ℚ) (k : Key) (row : List ℚ) : Key → List ℚ :=
  fun k' => if k' = k then row else t k'

/-- Backward return recurrence of `MC.update` step 2: `G ← reward[i] +
discount_factor * G` walking the reward history from last to first,
starting from `G = 0`; position `i` of the result holds `G_i`. -/
def computeReturns (discount_factor : ℚ) : List ℚ → List ℚ
  | [] => []
  | r :: rs =>
    let rest := computeReturns discount_factor rs
    (r + discount_factor * rest.headD 0) :: rest

/-- First-visit loop of `MC.update` step 3 over the zipped
`(state, action, return)` triples: for each pair not yet in `visited`,
increment `n_values[state][action]` by 1, then update
`q_values[state][action]` by `(1 / n_values[state][action]) * (G_t -
q_values[state][action])`, and mark the pair visited; pairs already
visited are skipped. -/
def fvLoop : List ((Key × ℕ) × ℚ) → List (Key × ℕ) → (Key → List ℚ) →
    (Key → List ℚ) → (Key → List ℚ) × (Key → List ℚ)
  | [], _, q, n => (q, n)
  | ((s, a), g) :: rest, visited, q, n =>
    if (s, a) ∈ visited then fvLoop rest visited q n
    else
      let nNew := (n s).getD a 0 + 1
      let n1 := fupdate n s ((n s).set a nNew)
      let qOld := (q s).getD a 0
      let q1 := fupdate q s ((q s).set a (qOld + 1 / nNew * (g - qOld)))
      fvLoop rest ((s, a) :: visited) q1 n1

/-- Model of `MC.update`: discretize the observation; while `done` is
false, append `(discretized obs, action, reward)` to the three parallel
histories and return; when `done` is true, compute the backward returns
over the accumulated reward history, run the first-visit update loop
over the accumulated history (the terminal call's own transition is not
part of it), and clear the three histories. -/
def MC_update (m : MCModel) (done : Bool) (rawObs : Obs) (action : ℕ)
    (reward : ℚ) : MCModel :=
  let obs := discretize_state m.pole_bound m.discretize_state_weight rawObs
  if done then
    let return_list := computeReturns m.discount_factor m.reward_hist
    let trips := List.zip (List.zip m.obs_hist m.action_hist) return_list
    let qn := fvLoop trips [] m.q_values m.n_values
    { m with
      q_values := qn.1, n_values := qn.2,
      obs_hist := [], action_hist := [], reward_hist := [] }
  else
    { m with
      obs_hist := m.obs_hist ++ [obs],
      action_hist := m.action_hist ++ [action],
      reward_hist := m.reward_hist ++ [reward] }

/-- First recorded return of a `(state, action)` pair in the zipped
episode triples, if the pair occurs at all. -/
def firstG (s : Key) (a : ℕ) (trips : List ((Key × ℕ) × ℚ)) : Option ℚ :=
  (trips.find? (fun tr => tr.1 = (s, a))).map (fun tr => tr.2)

/-- Tables of an instance are well formed when every stored row has
exactly `num_of_action` entries. -/
def WFTab (num_of_action : ℕ) (t : Key → List ℚ) : Prop :=
  ∀ k, (t k).length = num_of_action

/-- Partial-map version of `WFTab`. -/
def WFPTab (num_of_action : ℕ) (t : Key → Option (List ℚ)) : Prop :=
  ∀ k row, t k = some row → row.length = num_of_action

/-- Concrete `Double_Q_Learning` instance (2 actions, `lr = 1/2`,
`discount = 9/10`, fresh empty tables, toggle at `qa`) used to evaluate
the update rule on explicit inputs. -/
def DQex : DQModel :=
  ⟨2, 1/2, 9/10, 1/2, (2, 2, 2, 2), fun _ => none, fun _ => none, true⟩

/-- Concrete `MC` instance holding a finished two-step episode with
rewards `[1, 1]`, `discount = 1`, both steps at the same state-action
pair, used to evaluate the first-visit update on explicit inputs. -/
def MCex : MCModel :=
  ⟨2, 1/2, 1, 1/2, (2, 2, 2, 2), fun _ => [0, 0], fun _ => [0, 0],
    [(1, 1, 1, 1), (1, 1, 1, 1)], [0, 0], [1, 1]⟩

end RLBase

namespace Persist

open RLBase

/-- Keys of an in-memory table after a `load_q_value`: Python parses the
textual tuple with `float`, so components are floats; Python's numeric
equality (used by dict lookup) is rational equality. -/
abbrev QKey := ℚ × ℚ × ℚ × ℚ

/-- Serialized state key: the decimal digit string of each of the four
integer components, modelled as little-endian digit lists (the other
characters of `str((a, b, c, d))` are fixed punctuation that
`load_q_value` strips back off). -/
abbrev SerKey := List ℕ × List ℕ × List ℕ × List ℕ

/-- A Python int key looked up in a float-keyed dict: numeric equality
makes `(0, 1, 2, 3)` and `(0.0, 1.0, 2.0, 3.0)` the same key. -/
def castKey (k : Key) : QKey := ((k.1 : ℚ), (k.2.1 : ℚ), (k.2.2.1 : ℚ), (k.2.2.2 : ℚ))

/-- Textual rendering of one integer key component inside
`str(tuple_key)`. -/
def renderComp (n : ℕ) : List ℕ := Nat.digits 10 n

/-- Model of `str(k)` for an integer state-key tuple. -/
def renderKey (k : Key) : SerKey :=
  (renderComp k.1, renderComp k.2.1, renderComp k.2.2.1, renderComp k.2.2.2)

/-- Model of `float(component_text)` on an integer's digit string. -/
def parseComp (ds : List ℕ) : ℚ := (Nat.ofDigits 10 ds : ℕ)

/-- Model of `tuple(map(float, state.strip('()').split(', ')))`. -/
def parseKey (sk : SerKey) : QKey :=
  (parseComp sk.1, parseComp sk.2.1, parseComp sk.2.2.1, parseComp sk.2.2.2)

/-- Dictionary lookup on an association-list model of a Python dict. -/
def dlookup {K : Type} [DecidableEq K] {V : Type} (k : K) :
    List (K × V) → Option V
  | [] => none
  | (k', v) :: rest => if k = k' then some v else dlookup k rest

/-- Dictionary assignment `d[k] = v`: overwrite the existing entry in
place, or append a new one. -/
def dictInsert {K : Type} [DecidableEq K] {V : Type} (k : K) (v : V) :
    List (K × V) → List (K × V)
  | [] => [(k, v)]
  | (k', v') :: rest => if k = k' then (k, v) :: rest else (k', v') :: dictInsert k v rest

/-- Model of the single-table part of `BaseAlgorithm.save_q_value`: each
dict entry `(k, vector)` becomes the pair `(str(k), vector)` in the JSON
document, in iteration order. -/
def save_q_value (t : List (Key × List ℚ)) : List (SerKey × List ℚ) :=
  t.map (fun e => (renderKey e.1, e.2))

/-- Model of the per-section loop of `BaseAlgorithm.load_q_value`: for
each entry of the file section, parse the textual key and assign the
value vector into the existing table (`self.q_values[tuple_state] =
action_values.copy()`); entries not mentioned in the file are left
alone.  The same loop is run for `q_values`, `qa_values` and
`qb_values`. -/
def load_q_value (file : List (SerKey × List ℚ)) (t : List (QKey × List ℚ)) :
    List (QKey × List ℚ) :=
  file.foldl (fun acc e => dictInsert (parseKey e.1) e.2 acc) t

end Persist

namespace RLBase

/-! Helper lemmas about list cells, clipping and the linspace grid. -/

lemma getD_set_self (l : List ℚ) (i : ℕ) (x d : ℚ) (h : i < l.length) :
    (l.set i x).getD i d = x := by
  induction l generalizing i with
  | nil => simp at h
  | cons y ys ih =>
    cases i with
    | zero => simp
    | succ i => simpa using ih i (by simpa using h)

lemma getD_set_ne (l : List ℚ) (i j : ℕ) (x d : ℚ) (h : i ≠ j) :
    (l.set i x).getD j d = l.getD j d := by
  induction l generalizing i j with
  | nil => simp
  | cons y ys ih =>
    cases i with
    | zero =>
      cases j with
      | zero => exact absurd rfl h
      | succ j => simp
    | succ i =>
      cases j with
      | zero => simp
      | succ j => simpa using ih i j (by omega)

lemma countP_range_lt (k n : ℕ) :
    (List.range n).countP (fun i => decide (i < k)) = min k n := by
  induction n with
  | zero => simp
  | succ n ih =>
    rw [List.range_succ, List.countP_append, ih]
    by_cases h : n < k <;> simp [h] <;> omega

lemma clip_eq_lo (v lo hi : ℚ) (h1 : v ≤ lo) (h2 : lo ≤ hi) : clip v lo hi = lo := by
  unfold clip
  rw [max_eq_right h1, min_eq_left h2]

lemma clip_eq_hi (v lo hi : ℚ) (h1 : hi ≤ v) (h2 : lo ≤ hi) : clip v lo hi = hi := by
  unfold clip
  rw [max_eq_left (le_trans h2 h1), min_eq_right h1]

lemma clip_le_hi (v lo hi : ℚ) : clip v lo hi ≤ hi := min_le_right _ _

lemma length_linspace (lo hi : ℚ) (B : ℕ) :
    (linspace lo hi B).length = if B = 1 then 1 else B := by
  unfold linspace
  split
  · rfl
  · rw [List.length_map, List.length_range]

lemma mem_linspace_ge (lo hi : ℚ) (B : ℕ) (hlo : lo ≤ hi) :
    ∀ e ∈ linspace lo hi B, lo ≤ e := by
  intro e he
  by_cases hB1 : B = 1
  · unfold linspace at he
    rw [if_pos hB1] at he
    simp only [List.mem_singleton] at he
    exact he ▸ le_refl lo
  · unfold linspace at he
    rw [if_neg hB1] at he
    simp only [List.mem_map, List.mem_range] at he
    obtain ⟨i, hiB, rfl⟩ := he
    have hB2 : 2 ≤ B := by omega
    have hd : (0 : ℚ) < (B : ℚ) - 1 := by
      have h2B : (2 : ℚ) ≤ (B : ℚ) := by exact_mod_cast hB2
      linarith
    have hi0 : (0 : ℚ) ≤ (i : ℚ) := by positivity
    have hnum : (0 : ℚ) ≤ (i : ℚ) * (hi - lo) := mul_nonneg hi0 (by linarith)
    have := div_nonneg hnum (le_of_lt hd)
    linarith

lemma linspace_elem_lt_hi_iff (lo hi : ℚ) (B i : ℕ) (h : lo < hi) (hB : 2 ≤ B) :
    (lo + (i : ℚ) * (hi - lo) / ((B : ℚ) - 1) < hi) ↔ i < B - 1 := by
  have hd : (0 : ℚ) < (B : ℚ) - 1 := by
    have : (2 : ℚ) ≤ (B : ℚ) := by exact_mod_cast hB
    linarith
  have h2 : (lo + (i : ℚ) * (hi - lo) / ((B : ℚ) - 1) < hi) ↔
      (i : ℚ) * (hi - lo) / ((B : ℚ) - 1) < hi - lo := by
    constructor <;> intro <;> linarith
  have h3 : ((i : ℚ) * (hi - lo) / ((B : ℚ) - 1) < hi - lo) ↔
      (i : ℚ) * (hi - lo) < (hi - lo) * ((B : ℚ) - 1) := div_lt_iff₀ hd
  have h4 : ((i : ℚ) * (hi - lo) < (hi - lo) * ((B : ℚ) - 1)) ↔ (i : ℚ) < (B : ℚ) - 1 := by
    rw [mul_comm ((i : ℚ)) (hi - lo)]
    exact mul_lt_mul_left (by linarith)
  have h5 : ((i : ℚ) < (B : ℚ) - 1) ↔ i < B - 1 := by
    rw [show ((B : ℚ) - 1) = ((B - 1 : ℕ) : ℚ) by
      push_cast [Nat.cast_sub (by omega : 1 ≤ B)]
      ring]
    exact_mod_cast Iff.rfl
  exact h2.trans (h3.trans (h4.trans h5))

lemma discretize_dim_below (bound : ℚ) (B : ℕ) (v : ℚ) (hb : 0 < bound)
    (hv : v ≤ -bound) : discretize_dim bound B v = 0 := by
  unfold discretize_dim bucketize
  rw [clip_eq_lo _ _ _ hv (by linarith)]
  rw [List.countP_eq_zero]
  intro e he
  simp only [decide_eq_true_eq, not_lt]
  exact mem_linspace_ge _ _ _ (by linarith) e he

lemma discretize_dim_above (bound : ℚ) (B : ℕ) (v : ℚ) (hb : 0 < bound) (hB : 1 ≤ B)
    (hv : bound ≤ v) : discretize_dim bound B v = if B = 1 then 1 else B - 1 := by
  unfold discretize_dim bucketize
  rw [clip_eq_hi _ _ _ hv (by linarith)]
  by_cases hB1 : B = 1
  · subst hB1
    rw [if_pos rfl]
    unfold linspace
    rw [if_pos rfl, List.countP_cons, List.countP_nil]
    have hlt : (-bound < bound) := by linarith
    simp [hlt]
  · rw [if_neg hB1]
    unfold linspace
    rw [if_neg hB1, List.countP_map]
    have hB2 : 2 ≤ B := by omega
    have hcong : (List.range B).countP
        ((fun e => decide (e < bound)) ∘
          fun i : ℕ => -bound + (i : ℚ) * (bound - -bound) / ((B : ℚ) - 1))
        = (List.range B).countP (fun i : ℕ => decide (i < B - 1)) := by
      refine List.countP_congr fun i hi => ?_
      simp only [Function.comp_apply, decide_eq_true_eq]
      exact linspace_elem_lt_hi_iff (-bound) bound B i (by linarith) hB2
    rw [hcong, countP_range_lt]
    omega

lemma discretize_dim_le (bound : ℚ) (B : ℕ) (v : ℚ) (hB : 1 ≤ B) :
    discretize_dim bound B v ≤ B := by
  unfold discretize_dim bucketize
  refine le_trans (List.countP_le_length _) ?_
  rw [length_linspace]
  split <;> omega

lemma discretize_dim_le_of_two (bound : ℚ) (B : ℕ) (v : ℚ) (hb : 0 < bound)
    (hB : 2 ≤ B) : discretize_dim bound B v ≤ B - 1 := by
  unfold discretize_dim bucketize linspace
  rw [if_neg (by omega), List.countP_map]
  have hclip : clip v (-bound) bound ≤ bound := clip_le_hi _ _ _
  have hmin : (List.range B).countP (fun i : ℕ => decide (i < B - 1)) = B - 1 := by
    rw [countP_range_lt]
    omega
  refine le_trans (List.countP_mono_left (fun i hi hp => ?_)) (le_of_eq hmin)
  simp only [Function.comp_apply, decide_eq_true_eq] at hp ⊢
  exact (linspace_elem_lt_hi_iff (-bound) bound B i (by linarith) hB).mp
    (lt_of_lt_of_le hp hclip)

/-- C2 (amended): per dimension with bound `bound > 0` and bin count
`B ≥ 1`, a raw value at or below the lower physical bound `-bound`
discretizes to bucket 0; a raw value at or above the upper bound `bound`
discretizes to bucket `B - 1` when `B ≥ 2` (and to `1 = B` in the
degenerate case `B = 1`); every bucket index is at most `B`, and at most
`B - 1` when `B ≥ 2`; consequently every component of the state key
returned by `discretize_state` is at most its configured bin count. -/
theorem discretize_state_edge_buckets (bound : ℚ) (B : ℕ) (v : ℚ)
    (hb : 0 < bound) (hB : 1 ≤ B) :
    (v ≤ -bound → discretize_dim bound B v = 0) ∧
    (bound ≤ v → discretize_dim bound B v = if B = 1 then 1 else B - 1) ∧
    discretize_dim bound B v ≤ B ∧
    (2 ≤ B → discretize_dim bound B v ≤ B - 1) ∧
    (∀ (pole_bound : ℚ) (w : ℕ × ℕ × ℕ × ℕ) (obs : Obs),
      0 < pole_bound → 1 ≤ w.1 → 1 ≤ w.2.1 → 1 ≤ w.2.2.1 → 1 ≤ w.2.2.2 →
      (discretize_state pole_bound w obs).1 ≤ w.1 ∧
      (discretize_state pole_bound w obs).2.1 ≤ w.2.1 ∧
      (discretize_state pole_bound w obs).2.2.1 ≤ w.2.2.1 ∧
      (discretize_state pole_bound w obs).2.2.2 ≤ w.2.2.2) := by
  refine ⟨fun hv => discretize_dim_below bound B v hb hv,
    fun hv => discretize_dim_above bound B v hb hB hv,
    discretize_dim_le bound B v hB,
    fun hB2 => discretize_dim_le_of_two bound B v hb hB2,
    fun pole_bound w obs hp h1 h2 h3 h4 => ?_⟩
  exact ⟨discretize_dim_le _ _ _ h1, discretize_dim_le _ _ _ h2,
    discretize_dim_le _ _ _ h3, discretize_dim_le _ _ _ h4⟩

/-- Witness for C2 (amended) at `bound = 4`, `B = 2`, `v = 5`: a value
above the upper bound lands in bucket `B - 1 = 1`. -/
theorem discretize_state_edge_buckets_witness : discretize_dim 4 2 5 = 1 := by
  have h := (discretize_state_edge_buckets 4 2 5 (by norm_num) (by norm_num)).2.1
    (by norm_num)
  simpa using h

/-- Counterexample to C2 as stated: on the cart-position dimension
(bound 4.0) with bin count `B = 2`, the raw value 100 (at or above the
upper bound) discretizes to bucket 1, not to bucket `B = 2`. -/
theorem discretize_state_upper_edge_not_top :
    (discretize_state (1/2) (2, 3, 3, 3) (100, 0, 0, 0)).1 = 1 ∧
    (discretize_state (1/2) (2, 3, 3, 3) (100, 0, 0, 0)).1 ≠ 2 := by
  constructor <;>
    norm_num [discretize_state, discretize_dim, bucketize, clip, linspace,
      List.range_succ]

end RLBase

namespace RLBase

/-! Epsilon decay. -/

lemma decay_epsilon_ge (d f e : ℚ) : f ≤ decay_epsilon d f e := le_max_right _ _

lemma decay_epsilon_le (d f e : ℚ) (hd1 : d ≤ 1) (he0 : 0 ≤ e) (hf : f ≤ e) :
    decay_epsilon d f e ≤ e := by
  unfold decay_epsilon
  exact max_le (by nlinarith) hf

lemma decay_epsilon_mono (d f e1 e2 : ℚ) (hd0 : 0 ≤ d) (h : e1 ≤ e2) :
    decay_epsilon d f e1 ≤ decay_epsilon d f e2 :=
  max_le_max (mul_le_mul_of_nonneg_right h hd0) le_rfl

lemma decayIter_ge (d f : ℚ) : ∀ (n : ℕ) (e : ℚ), f ≤ e → f ≤ decayIter d f n e := by
  intro n
  induction n with
  | zero => exact fun e he => he
  | succ n ih => exact fun e _ => ih _ (decay_epsilon_ge d f e)

lemma decayIter_mono (d f : ℚ) (hd0 : 0 ≤ d) :
    ∀ (n : ℕ) (e1 e2 : ℚ), e1 ≤ e2 → decayIter d f n e1 ≤ decayIter d f n e2 := by
  intro n
  induction n with
  | zero => exact fun e1 e2 h => h
  | succ n ih => exact fun e1 e2 h => ih _ _ (decay_epsilon_mono d f e1 e2 hd0 h)

/-- C7 (amended): with `epsilon_decay ∈ (0, 1]`, `final_epsilon ≥ 0` and a
starting epsilon at or above the floor (`final_epsilon ≤ epsilon` — when
epsilon starts below the floor a call instead raises it to the floor),
each `decay_epsilon` call yields `max(epsilon * epsilon_decay,
final_epsilon)`, which never exceeds the previous epsilon and never drops
below `final_epsilon`; across any sequence of calls epsilon is
monotonically non-increasing and stays at or above the floor; once
epsilon equals `final_epsilon` further calls leave it unchanged; and one
call from epsilon 1.0 with decay 0.9 and any floor of at most 0.9 yields
0.9. -/
theorem decay_epsilon_spec (d f e : ℚ) (hd0 : 0 < d) (hd1 : d ≤ 1) (hf0 : 0 ≤ f)
    (hfe : f ≤ e) :
    decay_epsilon d f e ≤ e ∧
    f ≤ decay_epsilon d f e ∧
    (e = f → decay_epsilon d f e = f) ∧
    (∀ n : ℕ, decayIter d f (n + 1) e ≤ decayIter d f n e ∧ f ≤ decayIter d f (n + 1) e) ∧
    (∀ f' : ℚ, 0 ≤ f' → f' ≤ 9/10 → decay_epsilon (9/10) f' 1 = 9/10) := by
  have he0 : 0 ≤ e := le_trans hf0 hfe
  refine ⟨decay_epsilon_le d f e hd1 he0 hfe, decay_epsilon_ge d f e, ?_, ?_, ?_⟩
  · intro hef
    subst hef
    unfold decay_epsilon
    exact max_eq_right (by nlinarith)
  · intro n
    constructor
    · show decayIter d f n (decay_epsilon d f e) ≤ decayIter d f n e
      exact decayIter_mono d f (le_of_lt hd0) n _ _
        (decay_epsilon_le d f e hd1 he0 hfe)
    · exact decayIter_ge d f n _ (decay_epsilon_ge d f e)
  · intro f' _ hf9
    unfold decay_epsilon
    rw [one_mul]
    exact max_eq_left hf9

/-- Witness for C7 (amended): one call from epsilon 1.0 with decay 0.9 and
floor 0.5 yields 0.9. -/
theorem decay_epsilon_spec_witness : decay_epsilon (9/10) (1/2) 1 = 9/10 :=
  (decay_epsilon_spec (9/10) (1/2) 1 (by norm_num) (by norm_num) (by norm_num)
    (by norm_num)).2.2.2.2 (1/2) (by norm_num) (by norm_num)

/-- Counterexample to C7 as stated: for the configuration
`epsilon_decay = 0.9 ∈ (0, 1]`, `final_epsilon = 0.5`, a call from
epsilon `0.1` returns `0.5`, an increase — epsilon is not monotonically
non-increasing for every such configuration (the floor can raise it). -/
theorem decay_epsilon_not_monotone :
    decay_epsilon (9/10) (1/2) (1/10) = 1/2 ∧
    ¬ decay_epsilon (9/10) (1/2) (1/10) ≤ 1/10 := by
  constructor <;> norm_num [decay_epsilon]

/-! Action mapping. -/

/-- C8 (confirmed): with `num_of_action > 1`, `mapping_action` maps index
0 exactly to `action_min`, index `num_of_action - 1` exactly to
`action_max`, and any index `i` to the linear interpolation
`action_min + (i / (num_of_action - 1)) * (action_max - action_min)`;
with `num_of_action = 1`, every index maps to `action_min`. -/
theorem mapping_action_spec (n : ℕ) (amin amax : ℚ) :
    (1 < n →
      mapping_action n amin amax 0 = amin ∧
      mapping_action n amin amax (n - 1) = amax ∧
      ∀ i : ℕ, mapping_action n amin amax i
        = amin + ((i : ℚ) / ((n : ℚ) - 1)) * (amax - amin)) ∧
    (∀ i : ℕ, mapping_action 1 amin amax i = amin) := by
  constructor
  · intro hn
    have hne : n ≠ 1 := by omega
    have hpos : (0 : ℚ) < (n : ℚ) - 1 := by
      have h2n : (2 : ℚ) ≤ (n : ℚ) := by exact_mod_cast hn
      linarith
    refine ⟨?_, ?_, fun i => ?_⟩
    · unfold mapping_action
      rw [if_neg hne]
      simp
    · unfold mapping_action
      rw [if_neg hne]
      rw [show ((n - 1 : ℕ) : ℚ) = (n : ℚ) - 1 by
        push_cast [Nat.cast_sub (by omega : 1 ≤ n)]
        ring]
      rw [div_self (ne_of_gt hpos)]
      ring
    · unfold mapping_action
      rw [if_neg hne]
  · intro i
    unfold mapping_action
    rw [if_pos rfl]

/-- Witness for C8 at `num_of_action = 3`, `action_range = [-2, 2]`:
index 2 maps exactly to the upper end 2. -/
theorem mapping_action_spec_witness : mapping_action 3 (-2) 2 2 = 2 := by
  have h := ((mapping_action_spec 3 (-2) 2).1 (by norm_num)).2.1
  simpa using h

/-! Double Q-Learning action selection (exploitation branch). -/

/-- C1 (amended): in the Double Q-Learning exploitation branch, with
`a1` the first table's argmax and `a2` the second table's argmax for the
state key, the selected action is `a1` whenever the first table's value
at `a1` strictly exceeds the second table's value at `a2`, is `a2`
whenever the second table's value strictly exceeds the first's, and on
an exact tie is the first table's choice `a1` (the `>=` comparison
favors the first table on ties). -/
theorem dq_select_exploit_spec (n : ℕ) (qa qb : Key → Option (List ℚ)) (k : Key) :
    ((trow n qb k).getD (npArgmax (trow n qb k)) 0
        < (trow n qa k).getD (npArgmax (trow n qa k)) 0 →
      dq_select_exploit n qa qb k = npArgmax (trow n qa k)) ∧
    ((trow n qa k).getD (npArgmax (trow n qa k)) 0
        < (trow n qb k).getD (npArgmax (trow n qb k)) 0 →
      dq_select_exploit n qa qb k = npArgmax (trow n qb k)) ∧
    ((trow n qa k).getD (npArgmax (trow n qa k)) 0
        = (trow n qb k).getD (npArgmax (trow n qb k)) 0 →
      dq_select_exploit n qa qb k = npArgmax (trow n qa k)) := by
  refine ⟨fun h => ?_, fun h => ?_, fun h => ?_⟩
  · unfold dq_select_exploit
    rw [if_pos (le_of_lt h)]
  · unfold dq_select_exploit
    rw [if_neg (not_le.mpr h)]
  · unfold dq_select_exploit
    rw [if_pos (le_of_eq h.symm)]

/-- Witness for C1 (amended): a tie between the two tables' best values
(3 in each) selects the first table's argmax. -/
theorem dq_select_exploit_spec_witness :
    dq_select_exploit 2 (fun _ => some [3, 0]) (fun _ => some [0, 3]) (0, 0, 0, 0)
      = npArgmax (trow 2 (fun _ => some [3, 0]) (0, 0, 0, 0)) :=
  (dq_select_exploit_spec 2 (fun _ => some [3, 0]) (fun _ => some [0, 3])
    (0, 0, 0, 0)).2.2 (by norm_num [trow, npArgmax, npArgmaxAux])

/-- Counterexample to C1 as stated: with `qa = [5, 0]` and `qb = [0, 5]`
at the state key, the two tables' best values tie (both 5), the argmaxes
are `a1 = 0` and `a2 = 1`, and the exploitation branch returns `a1 = 0`,
not the second table's choice `a2 = 1` claimed for ties. -/
theorem dq_select_exploit_tie_first :
    npArgmax (trow 2 (fun _ => some [5, 0]) (0, 0, 0, 0)) = 0 ∧
    npArgmax (trow 2 (fun _ => some [0, 5]) (0, 0, 0, 0)) = 1 ∧
    (trow 2 (fun _ => some [5, 0]) (0, 0, 0, 0)).getD 0 0
      = (trow 2 (fun _ => some [0, 5]) (0, 0, 0, 0)).getD 1 0 ∧
    dq_select_exploit 2 (fun _ => some [5, 0]) (fun _ => some [0, 5]) (0, 0, 0, 0) = 0 := by
  refine ⟨?_, ?_, ?_, ?_⟩ <;>
    norm_num [dq_select_exploit, trow, npArgmax, npArgmaxAux]

end RLBase

namespace RLBase

/-! Monte Carlo helper lemmas. -/

lemma headD_eq_getD_zero (l : List ℚ) : l.headD 0 = l.getD 0 0 := by
  cases l <;> rfl

lemma length_computeReturns (g : ℚ) (rs : List ℚ) :
    (computeReturns g rs).length = rs.length := by
  induction rs with
  | nil => rfl
  | cons r rs ih => simp [computeReturns, ih]

lemma computeReturns_getD (g : ℚ) (rs : List ℚ) :
    ∀ i, i < rs.length → (computeReturns g rs).getD i 0
      = rs.getD i 0 + g * (computeReturns g rs).getD (i + 1) 0 := by
  induction rs with
  | nil => intro i h; simp at h
  | cons r rs ih =>
    intro i h
    cases i with
    | zero =>
      rw [show computeReturns g (r :: rs)
          = (r + g * (computeReturns g rs).headD 0) :: computeReturns g rs from rfl]
      rw [List.getD_cons_zero, List.getD_cons_zero, List.getD_cons_succ,
        headD_eq_getD_zero]
    | succ i =>
      have hi : i < rs.length := by simpa using h
      simpa [computeReturns] using ih i hi

lemma fupdate_length (t : RLBase.Key → List ℚ) (s : RLBase.Key) (row : List ℚ) (N : ℕ)
    (ht : ∀ k, (t k).length = N) (hrow : row.length = N) :
    ∀ k, ((fupdate t s row) k).length = N := by
  intro k
  simp only [fupdate]
  split
  · exact hrow
  · exact ht k

lemma fval_fupdate_point_ne (t : RLBase.Key → List ℚ) (s' : RLBase.Key) (a' : ℕ) (x : ℚ)
    (s : RLBase.Key) (a : ℕ) (h : (s, a) ≠ (s', a')) :
    fval (fupdate t s' ((t s').set a' x)) s a = fval t s a := by
  by_cases hs : s = s'
  · subst hs
    have ha : a' ≠ a := by
      intro haa
      exact h (by rw [haa])
    simp only [fval, fupdate, eq_self_iff_true, if_true]
    exact getD_set_ne _ a' a x 0 ha
  · simp only [fval, fupdate]
    rw [if_neg hs]

lemma firstG_cons_self (s : RLBase.Key) (a : ℕ) (g : ℚ) (rest : List ((RLBase.Key × ℕ) × ℚ)) :
    firstG s a (((s, a), g) :: rest) = some g := by
  simp [firstG]

lemma firstG_cons_ne (s : RLBase.Key) (a : ℕ) (s' : RLBase.Key) (a' : ℕ) (g' : ℚ)
    (rest : List ((RLBase.Key × ℕ) × ℚ)) (h : (s', a') ≠ (s, a)) :
    firstG s a (((s', a'), g') :: rest) = firstG s a rest := by
  simp [firstG, List.find?_cons_of_neg, h]

lemma fvLoop_visited (trips : List ((RLBase.Key × ℕ) × ℚ)) :
    ∀ (visited : List (RLBase.Key × ℕ)) (q n : RLBase.Key → List ℚ) (s : RLBase.Key) (a : ℕ),
    (s, a) ∈ visited →
    fval (fvLoop trips visited q n).1 s a = fval q s a ∧
    fval (fvLoop trips visited q n).2 s a = fval n s a := by
  induction trips with
  | nil => exact fun visited q n s a _ => ⟨rfl, rfl⟩
  | cons tr rest ih =>
    intro visited q n s a hv
    obtain ⟨⟨s', a'⟩, g'⟩ := tr
    by_cases hmem : (s', a') ∈ visited
    · have hstep : fvLoop (((s', a'), g') :: rest) visited q n = fvLoop rest visited q n := by
        simp [fvLoop, hmem]
      rw [hstep]
      exact ih visited q n s a hv
    · have hne : (s, a) ≠ (s', a') := fun h => hmem (h ▸ hv)
      have hstep : fvLoop (((s', a'), g') :: rest) visited q n
          = fvLoop rest ((s', a') :: visited)
              (fupdate q s' ((q s').set a'
                ((q s').getD a' 0 + 1 / ((n s').getD a' 0 + 1) * (g' - (q s').getD a' 0))))
              (fupdate n s' ((n s').set a' ((n s').getD a' 0 + 1))) := by
        simp [fvLoop, hmem]
      rw [hstep]
      have h1 := ih ((s', a') :: visited)
        (fupdate q s' ((q s').set a'
          ((q s').getD a' 0 + 1 / ((n s').getD a' 0 + 1) * (g' - (q s').getD a' 0))))
        (fupdate n s' ((n s').set a' ((n s').getD a' 0 + 1)))
        s a (List.mem_cons_of_mem _ hv)
      exact ⟨h1.1.trans (fval_fupdate_point_ne q s' a' _ s a hne),
        h1.2.trans (fval_fupdate_point_ne n s' a' _ s a hne)⟩

lemma fvLoop_firstG (N : ℕ) (trips : List ((RLBase.Key × ℕ) × ℚ)) :
    ∀ (visited : List (RLBase.Key × ℕ)) (q n : RLBase.Key → List ℚ),
    (∀ k, (q k).length = N) → (∀ k, (n k).length = N) →
    ∀ (s : RLBase.Key) (a : ℕ), a < N → (s, a) ∉ visited →
    (firstG s a trips = none →
      fval (fvLoop trips visited q n).1 s a = fval q s a ∧
      fval (fvLoop trips visited q n).2 s a = fval n s a) ∧
    (∀ g, firstG s a trips = some g →
      fval (fvLoop trips visited q n).2 s a = fval n s a + 1 ∧
      fval (fvLoop trips visited q n).1 s a
        = fval q s a + 1 / (fval n s a + 1) * (g - fval q s a)) := by
  induction trips with
  | nil =>
    intro visited q n _ _ s a _ _
    refine ⟨fun _ => ⟨rfl, rfl⟩, fun g hg => ?_⟩
    simp [firstG] at hg
  | cons tr rest ih =>
    intro visited q n hwq hwn s a ha hnv
    obtain ⟨⟨s', a'⟩, g'⟩ := tr
    by_cases hmem : (s', a') ∈ visited
    · have hne : (s', a') ≠ (s, a) := fun h => hnv (h ▸ hmem)
      have hstep : fvLoop (((s', a'), g') :: rest) visited q n = fvLoop rest visited q n := by
        simp [fvLoop, hmem]
      rw [hstep, firstG_cons_ne s a s' a' g' rest hne]
      exact ih visited q n hwq hwn s a ha hnv
    · have hstep : fvLoop (((s', a'), g') :: rest) visited q n
          = fvLoop rest ((s', a') :: visited)
              (fupdate q s' ((q s').set a'
                ((q s').getD a' 0 + 1 / ((n s').getD a' 0 + 1) * (g' - (q s').getD a' 0))))
              (fupdate n s' ((n s').set a' ((n s').getD a' 0 + 1))) := by
        simp [fvLoop, hmem]
      rw [hstep]
      have hwq1 : ∀ k, ((fupdate q s' ((q s').set a'
          ((q s').getD a' 0 + 1 / ((n s').getD a' 0 + 1) * (g' - (q s').getD a' 0)))) k).length = N :=
        fupdate_length q s' _ N hwq (by rw [List.length_set]; exact hwq s')
      have hwn1 : ∀ k, ((fupdate n s' ((n s').set a' ((n s').getD a' 0 + 1))) k).length = N :=
        fupdate_length n s' _ N hwn (by rw [List.length_set]; exact hwn s')
      by_cases heq : (s, a) = (s', a')
      · injection heq with h1 h2
        subst h1
        subst h2
        constructor
        · intro hnone
          rw [firstG_cons_self] at hnone
          exact absurd hnone (by simp)
        · intro g hg
          rw [firstG_cons_self] at hg
          injection hg with hgg
          subst hgg
          have hv := fvLoop_visited rest ((s, a) :: visited)
            (fupdate q s ((q s).set a
              ((q s).getD a 0 + 1 / ((n s).getD a 0 + 1) * (g' - (q s).getD a 0))))
            (fupdate n s ((n s).set a ((n s).getD a 0 + 1)))
            s a (List.mem_cons_self _ _)
          constructor
          · rw [hv.2]
            simp only [fval, fupdate, eq_self_iff_true, if_true]
            rw [getD_set_self _ _ _ _ (by rw [hwn s]; exact ha)]
          · rw [hv.1]
            simp only [fval, fupdate, eq_self_iff_true, if_true]
            rw [getD_set_self _ _ _ _ (by rw [hwq s]; exact ha)]
      · have hne' : (s', a') ≠ (s, a) := fun h => heq h.symm
        rw [firstG_cons_ne s a s' a' g' rest hne']
        have hnv' : (s, a) ∉ (s', a') :: visited := by
          intro hmem'
          rcases List.mem_cons.mp hmem' with h | h
          · exact heq h
          · exact hnv h
        have hrec := ih ((s', a') :: visited)
          (fupdate q s' ((q s').set a'
            ((q s').getD a' 0 + 1 / ((n s').getD a' 0 + 1) * (g' - (q s').getD a' 0))))
          (fupdate n s' ((n s').set a' ((n s').getD a' 0 + 1)))
          hwq1 hwn1 s a ha hnv'
        have hq : fval (fupdate q s' ((q s').set a'
            ((q s').getD a' 0 + 1 / ((n s').getD a' 0 + 1) * (g' - (q s').getD a' 0)))) s a
            = fval q s a := fval_fupdate_point_ne q s' a' _ s a heq
        have hn : fval (fupdate n s' ((n s').set a' ((n s').getD a' 0 + 1))) s a
            = fval n s a := fval_fupdate_point_ne n s' a' _ s a heq
        constructor
        · intro hnone
          have h0 := hrec.1 hnone
          exact ⟨h0.1.trans hq, h0.2.trans hn⟩
        · intro g hg
          have h0 := hrec.2 g hg
          rw [hq, hn] at h0
          exact h0

end RLBase

namespace RLBase

/-- C3 (confirmed): on a Monte Carlo `update` call with `done = true`,
the returns over the accumulated history satisfy the backward recurrence
`G_i = reward[i] + γ * G_{i+1}` (with `G` past the last recorded step
equal to 0, encoded by the out-of-range default of `getD`); scanning
recorded steps in forward order, each `(state, action)` pair occurring
in the episode gets, at its first occurrence, exactly one visit-count
increment and one incremental-mean value update
`Q += (1/N) * (G_i - Q)` with the post-increment count `N`; pairs never
occurring are untouched and later occurrences cause no further change;
and the configured learning rate `lr` is never used by `update`. -/
theorem MC_update_done_spec (m : MCModel) (rawObs : Obs) (a0 : ℕ) (r0 : ℚ)
    (hwq : WFTab m.num_of_action m.q_values) (hwn : WFTab m.num_of_action m.n_values) :
    (computeReturns m.discount_factor m.reward_hist).length = m.reward_hist.length ∧
    (∀ i, i < m.reward_hist.length →
      (computeReturns m.discount_factor m.reward_hist).getD i 0
        = m.reward_hist.getD i 0
          + m.discount_factor * (computeReturns m.discount_factor m.reward_hist).getD (i + 1) 0) ∧
    (∀ (s : Key) (a : ℕ), a < m.num_of_action →
      (firstG s a (List.zip (List.zip m.obs_hist m.action_hist)
          (computeReturns m.discount_factor m.reward_hist)) = none →
        fval (MC_update m true rawObs a0 r0).q_values s a = fval m.q_values s a ∧
        fval (MC_update m true rawObs a0 r0).n_values s a = fval m.n_values s a) ∧
      (∀ g, firstG s a (List.zip (List.zip m.obs_hist m.action_hist)
          (computeReturns m.discount_factor m.reward_hist)) = some g →
        fval (MC_update m true rawObs a0 r0).n_values s a = fval m.n_values s a + 1 ∧
        fval (MC_update m true rawObs a0 r0).q_values s a
          = fval m.q_values s a
            + 1 / (fval m.n_values s a + 1) * (g - fval m.q_values s a))) ∧
    (∀ (c : ℚ) (done : Bool) (o : Obs) (a : ℕ) (r : ℚ),
      MC_update { m with lr := c } done o a r = { MC_update m done o a r with lr := c }) := by
  refine ⟨length_computeReturns _ _, computeReturns_getD _ _, fun s a ha => ?_, ?_⟩
  · exact fvLoop_firstG m.num_of_action
      (List.zip (List.zip m.obs_hist m.action_hist)
        (computeReturns m.discount_factor m.reward_hist))
      [] m.q_values m.n_values hwq hwn s a ha (List.not_mem_nil _)
  · intro c done o a r
    cases done <;> rfl

/-- Witness for C3 on the concrete finished episode `MCex` (rewards
`[1, 1]`, `γ = 1`, both steps at the same pair): the pair's count is
incremented exactly once even though it occurs twice. -/
theorem MC_update_done_spec_witness :
    fval (MC_update MCex true (0, 0, 0, 0) 0 0).n_values (1, 1, 1, 1) 0
      = fval MCex.n_values (1, 1, 1, 1) 0 + 1 := by
  have hfind : firstG (1, 1, 1, 1) 0 (List.zip (List.zip MCex.obs_hist MCex.action_hist)
      (computeReturns MCex.discount_factor MCex.reward_hist)) = some 2 := by
    show firstG (1, 1, 1, 1) 0 (List.zip (List.zip [(1, 1, 1, 1), (1, 1, 1, 1)] [0, 0])
      (computeReturns 1 [1, 1])) = some 2
    norm_num [firstG, computeReturns, List.find?]
  exact ((MC_update_done_spec MCex (0, 0, 0, 0) 0 0 (fun k => rfl) (fun k => rfl)).2.2.1
    (1, 1, 1, 1) 0 (by norm_num [MCex])).2 2 hfind |>.1

/-- C9 (confirmed): a Monte Carlo `update` call with `done = false`
leaves both tables unchanged and only appends the single transition
(discretized state, action, reward) to the three parallel histories; a
call with `done = true` empties all three histories and its result does
not depend on the terminal call's own observation, action or reward
(the terminal transition is never appended). -/
theorem MC_update_frame (m : MCModel) (rawObs : Obs) (a : ℕ) (r : ℚ) :
    (MC_update m false rawObs a r).q_values = m.q_values ∧
    (MC_update m false rawObs a r).n_values = m.n_values ∧
    (MC_update m false rawObs a r).obs_hist
      = m.obs_hist ++ [discretize_state m.pole_bound m.discretize_state_weight rawObs] ∧
    (MC_update m false rawObs a r).action_hist = m.action_hist ++ [a] ∧
    (MC_update m false rawObs a r).reward_hist = m.reward_hist ++ [r] ∧
    (MC_update m true rawObs a r).obs_hist = [] ∧
    (MC_update m true rawObs a r).action_hist = [] ∧
    (MC_update m true rawObs a r).reward_hist = [] ∧
    (∀ (rawObs' : Obs) (a' : ℕ) (r' : ℚ),
      MC_update m true rawObs' a' r' = MC_update m true rawObs a r) :=
  ⟨rfl, rfl, rfl, rfl, rfl, rfl, rfl, rfl, fun _ _ _ => rfl⟩

/-! Double Q-Learning update. -/

lemma length_trow (N : ℕ) (t : Key → Option (List ℚ)) (k : Key) (h : WFPTab N t) :
    (trow N t k).length = N := by
  unfold trow
  cases ht : t k with
  | none => simp
  | some row => simpa using h k row ht

lemma trow_tupdate_self (N : ℕ) (t : Key → Option (List ℚ)) (k : Key) (row : List ℚ) :
    trow N (tupdate t k row) k = row := by
  simp [trow, tupdate]

/-- C5 (confirmed): a Double Q-Learning `update` call whose toggle
selects the first table sets
`qa[state][action] ← qa[state][action] + lr * (reward + γ *
max(qb[next_state]) - qa[state][action])` — `max(qb[next_state])` taken
as 0 when `next_state` has no entry in `qb` (`optMax`) — and leaves the
second table untouched; when the toggle selects the second table the
symmetric update applies with the two tables' roles exchanged. -/
theorem DQ_update_spec (m : DQModel) (rawObs : Obs) (a : ℕ) (r : ℚ) (rawNext : Obs)
    (ha : a < m.num_of_action) (hqa : WFPTab m.num_of_action m.qa_values)
    (hqb : WFPTab m.num_of_action m.qb_values) :
    (m.check_update = true →
      (trow m.num_of_action (DQ_update m rawObs a r rawNext).qa_values
          (discretize_state m.pole_bound m.discretize_state_weight rawObs)).getD a 0
        = (trow m.num_of_action m.qa_values
            (discretize_state m.pole_bound m.discretize_state_weight rawObs)).getD a 0
          + m.lr * (r + m.discount_factor
              * optMax (m.qb_values
                  (discretize_state m.pole_bound m.discretize_state_weight rawNext))
            - (trow m.num_of_action m.qa_values
                (discretize_state m.pole_bound m.discretize_state_weight rawObs)).getD a 0) ∧
      (DQ_update m rawObs a r rawNext).qb_values = m.qb_values) ∧
    (m.check_update = false →
      (trow m.num_of_action (DQ_update m rawObs a r rawNext).qb_values
          (discretize_state m.pole_bound m.discretize_state_weight rawObs)).getD a 0
        = (trow m.num_of_action m.qb_values
            (discretize_state m.pole_bound m.discretize_state_weight rawObs)).getD a 0
          + m.lr * (r + m.discount_factor
              * optMax (m.qa_values
                  (discretize_state m.pole_bound m.discretize_state_weight rawNext))
            - (trow m.num_of_action m.qb_values
                (discretize_state m.pole_bound m.discretize_state_weight rawObs)).getD a 0) ∧
      (DQ_update m rawObs a r rawNext).qa_values = m.qa_values) := by
  constructor
  · intro hcu
    have hqa' : (DQ_update m rawObs a r rawNext).qa_values
        = tupdate m.qa_values (discretize_state m.pole_bound m.discretize_state_weight rawObs)
            ((trow m.num_of_action m.qa_values
                (discretize_state m.pole_bound m.discretize_state_weight rawObs)).set a
              ((trow m.num_of_action m.qa_values
                  (discretize_state m.pole_bound m.discretize_state_weight rawObs)).getD a 0
                + m.lr * (r + m.discount_factor
                    * optMax (m.qb_values
                        (discretize_state m.pole_bound m.discretize_state_weight rawNext))
                  - (trow m.num_of_action m.qa_values
                      (discretize_state m.pole_bound m.discretize_state_weight rawObs)).getD a 0))) := by
      simp only [DQ_update, hcu, if_true]
    have hb : (DQ_update m rawObs a r rawNext).qb_values = m.qb_values := by
      simp only [DQ_update, hcu, if_true]
    refine ⟨?_, hb⟩
    rw [hqa', trow_tupdate_self]
    exact getD_set_self _ _ _ _
      (by rw [length_trow m.num_of_action m.qa_values _ hqa]; exact ha)
  · intro hcu
    have hqb' : (DQ_update m rawObs a r rawNext).qb_values
        = tupdate m.qb_values (discretize_state m.pole_bound m.discretize_state_weight rawObs)
            ((trow m.num_of_action m.qb_values
                (discretize_state m.pole_bound m.discretize_state_weight rawObs)).set a
              ((trow m.num_of_action m.qb_values
                  (discretize_state m.pole_bound m.discretize_state_weight rawObs)).getD a 0
                + m.lr * (r + m.discount_factor
                    * optMax (m.qa_values
                        (discretize_state m.pole_bound m.discretize_state_weight rawNext))
                  - (trow m.num_of_action m.qb_values
                      (discretize_state m.pole_bound m.discretize_state_weight rawObs)).getD a 0))) := by
      simp only [DQ_update, hcu, Bool.false_eq_true, if_false]
    have hb : (DQ_update m rawObs a r rawNext).qa_values = m.qa_values := by
      simp only [DQ_update, hcu, Bool.false_eq_true, if_false]
    refine ⟨?_, hb⟩
    rw [hqb', trow_tupdate_self]
    exact getD_set_self _ _ _ _
      (by rw [length_trow m.num_of_action m.qb_values _ hqb]; exact ha)

/-- Witness for C5 on the concrete instance `DQex` (toggle at `qa`,
empty tables, `lr = 1/2`, `γ = 9/10`, reward 1): the updated cell
becomes `0 + 1/2 * (1 + 9/10 * 0 - 0) = 1/2`. -/
theorem DQ_update_spec_witness :
    (trow DQex.num_of_action (DQ_update DQex (0, 0, 0, 0) 1 1 (0, 0, 0, 0)).qa_values
        (discretize_state DQex.pole_bound DQex.discretize_state_weight (0, 0, 0, 0))).getD 1 0
      = 1/2 := by
  have h := ((DQ_update_spec DQex (0, 0, 0, 0) 1 1 (0, 0, 0, 0) (by norm_num [DQex])
    (fun k row hk => Option.noConfusion hk) (fun k row hk => Option.noConfusion hk)).1 rfl).1
  rw [h]
  norm_num [DQex, trow, optMax]

/-- C6 (confirmed): the Double Q-Learning toggle flips unconditionally
after every `update` call; the call writes only the toggle-selected
table (the other is untouched), so two consecutive calls never write the
same table twice in a row: a call that wrote `qa` is followed by one
that leaves `qa` unchanged, and symmetrically for `qb`. -/
theorem DQ_update_toggle (m : DQModel) (o : Obs) (a : ℕ) (r : ℚ) (o' : Obs) :
    (DQ_update m o a r o').check_update = !m.check_update ∧
    (m.check_update = true → (DQ_update m o a r o').qb_values = m.qb_values ∧
      ∀ (o2 : Obs) (a2 : ℕ) (r2 : ℚ) (o2' : Obs),
        (DQ_update (DQ_update m o a r o') o2 a2 r2 o2').qa_values
          = (DQ_update m o a r o').qa_values) ∧
    (m.check_update = false → (DQ_update m o a r o').qa_values = m.qa_values ∧
      ∀ (o2 : Obs) (a2 : ℕ) (r2 : ℚ) (o2' : Obs),
        (DQ_update (DQ_update m o a r o') o2 a2 r2 o2').qb_values
          = (DQ_update m o a r o').qb_values) := by
  have h1 : (DQ_update m o a r o').check_update = !m.check_update := by
    cases hcu : m.check_update <;> simp [DQ_update, hcu]
  refine ⟨h1, fun hcu => ?_, fun hcu => ?_⟩
  · have h2 : (DQ_update m o a r o').check_update = false := by
      rw [h1, hcu]
      rfl
    constructor
    · simp only [DQ_update, hcu, if_true]
    · intro o2 a2 r2 o2'
      generalize (DQ_update m o a r o') = X at h2 ⊢
      simp [DQ_update, h2]
  · have h2 : (DQ_update m o a r o').check_update = true := by
      rw [h1, hcu]
      rfl
    constructor
    · simp only [DQ_update, hcu, Bool.false_eq_true, if_false]
    · intro o2 a2 r2 o2'
      generalize (DQ_update m o a r o') = X at h2 ⊢
      simp [DQ_update, h2]

/-- Witness for C6 on `DQex` (toggle at `qa`): after one update the
toggle is flipped and the second table was untouched. -/
theorem DQ_update_toggle_witness :
    (DQ_update DQex (0, 0, 0, 0) 0 1 (0, 0, 0, 0)).check_update = false ∧
    (DQ_update DQex (0, 0, 0, 0) 0 1 (0, 0, 0, 0)).qb_values = DQex.qb_values := by
  constructor
  · have h := (DQ_update_toggle DQex (0, 0, 0, 0) 0 1 (0, 0, 0, 0)).1
    simpa using h
  · exact ((DQ_update_toggle DQex (0, 0, 0, 0) 0 1 (0, 0, 0, 0)).2.1 rfl).1

end RLBase

namespace Persist

open RLBase

/-! Serialization helper lemmas. -/

lemma parseComp_renderComp (n : ℕ) : parseComp (renderComp n) = (n : ℚ) := by
  unfold parseComp renderComp
  rw [Nat.ofDigits_digits]

lemma parseKey_renderKey (k : RLBase.Key) : parseKey (renderKey k) = castKey k := by
  simp [parseKey, renderKey, castKey, parseComp_renderComp]

lemma castKey_injective : Function.Injective castKey := by
  intro k1 k2 h
  obtain ⟨a1, b1, c1, d1⟩ := k1
  obtain ⟨a2, b2, c2, d2⟩ := k2
  simp only [castKey, Prod.mk.injEq, Nat.cast_inj] at h
  obtain ⟨rfl, rfl, rfl, rfl⟩ := h
  rfl

lemma dlookup_dictInsert_self {K V : Type} [DecidableEq K] (k : K) (v : V)
    (d : List (K × V)) : dlookup k (dictInsert k v d) = some v := by
  induction d with
  | nil => simp [dictInsert, dlookup]
  | cons e rest ih =>
    obtain ⟨k', v'⟩ := e
    by_cases h : k = k'
    · simp [dictInsert, dlookup, h]
    · simp [dictInsert, dlookup, h, ih]

lemma dlookup_dictInsert_ne {K V : Type} [DecidableEq K] (k k1 : K) (v : V)
    (d : List (K × V)) (h : k ≠ k1) : dlookup k (dictInsert k1 v d) = dlookup k d := by
  induction d with
  | nil => simp [dictInsert, dlookup, h]
  | cons e rest ih =>
    obtain ⟨k', v'⟩ := e
    by_cases h1 : k1 = k'
    · subst h1
      simp [dictInsert, dlookup, h]
    · by_cases h2 : k = k' <;> simp [dictInsert, dlookup, h1, h2, ih]

lemma dlookup_load_not_mem (file : List (SerKey × List ℚ)) :
    ∀ (t : List (QKey × List ℚ)) (k : QKey), (∀ e ∈ file, parseKey e.1 ≠ k) →
    dlookup k (load_q_value file t) = dlookup k t := by
  induction file with
  | nil => exact fun t k _ => rfl
  | cons e rest ih =>
    intro t k h
    have hstep : load_q_value (e :: rest) t
        = load_q_value rest (dictInsert (parseKey e.1) e.2 t) := rfl
    rw [hstep, ih _ k (fun e' he' => h e' (List.mem_cons_of_mem _ he'))]
    exact dlookup_dictInsert_ne k (parseKey e.1) e.2 t
      (Ne.symm (h e (List.mem_cons_self _ _)))

lemma dlookup_load_mem (file : List (SerKey × List ℚ)) :
    ∀ (t : List (QKey × List ℚ)) (sk : SerKey) (v : List ℚ) (k : QKey),
    (file.map (fun e => parseKey e.1)).Nodup → (sk, v) ∈ file → parseKey sk = k →
    dlookup k (load_q_value file t) = some v := by
  induction file with
  | nil =>
    intro t sk v k _ hmem _
    simp at hmem
  | cons e rest ih =>
    intro t sk v k hnd hmem hk
    have hstep : load_q_value (e :: rest) t
        = load_q_value rest (dictInsert (parseKey e.1) e.2 t) := rfl
    rw [hstep]
    rcases List.mem_cons.mp hmem with heq | hmem'
    · subst heq
      have hhead : parseKey (sk, v).1 ∉ rest.map (fun e => parseKey e.1) :=
        (List.nodup_cons.mp hnd).1
      have hnot : ∀ e' ∈ rest, parseKey e'.1 ≠ k := by
        intro e' he' hpk
        apply hhead
        rw [show parseKey (sk, v).1 = k from hk, ← hpk]
        exact List.mem_map_of_mem _ he'
      rw [dlookup_load_not_mem rest _ k hnot, ← hk]
      exact dlookup_dictInsert_self (parseKey sk) v t
    · exact ih _ sk v k (List.nodup_cons.mp hnd).2 hmem' hk

/-- C4 (confirmed): saving a table whose keys are integer 4-tuples
(`save_q_value` renders each key textually) and loading the produced
document into a fresh instance (`load_q_value` parses each textual key
back with `float`) reproduces the same state-key → value-vector mapping:
every saved key, looked up through Python's int/float numeric key
equality (`castKey`), finds exactly the vector it was saved with. -/
theorem save_load_roundtrip (t : List (RLBase.Key × List ℚ))
    (hnd : (t.map Prod.fst).Nodup) (k : RLBase.Key) (v : List ℚ)
    (hmem : (k, v) ∈ t) :
    dlookup (castKey k) (load_q_value (save_q_value t) []) = some v := by
  apply dlookup_load_mem (save_q_value t) [] (renderKey k) v (castKey k) ?_ ?_
    (parseKey_renderKey k)
  · have h1 : (save_q_value t).map (fun e => parseKey e.1)
        = t.map (fun e => castKey e.1) := by
      unfold save_q_value
      rw [List.map_map]
      exact List.map_congr_left (fun e he => parseKey_renderKey e.1)
    have h2 : t.map (fun e => castKey e.1) = (t.map Prod.fst).map castKey := by
      rw [List.map_map]
      rfl
    rw [h1, h2]
    exact hnd.map castKey_injective
  · exact List.mem_map_of_mem _ hmem

/-- Witness for C4 on a one-entry table with key `(0, 1, 2, 3)` and
vector `[5, 7]`. -/
theorem save_load_roundtrip_witness :
    dlookup (castKey (0, 1, 2, 3))
      (load_q_value (save_q_value [((0, 1, 2, 3), [5, 7])]) []) = some [5, 7] :=
  save_load_roundtrip [((0, 1, 2, 3), [5, 7])] (by simp) (0, 1, 2, 3) [5, 7] (by simp)

/-- C10 (confirmed): `load_q_value` merges the file into the existing
table rather than replacing it — a key whose parsed form matches no file
entry keeps exactly the vector it had before the call, while a key that
does appear in the file (parsed) ends up with the file's vector.  The
same per-entry assignment loop is run for `q_values`, `qa_values` and
`qb_values`. -/
theorem load_q_value_merges (file : List (SerKey × List ℚ))
    (t : List (QKey × List ℚ)) (k : QKey) :
    (∀ v : List ℚ, dlookup k t = some v → (∀ e ∈ file, parseKey e.1 ≠ k) →
      dlookup k (load_q_value file t) = some v) ∧
    (∀ (sk : SerKey) (v : List ℚ), (file.map (fun e => parseKey e.1)).Nodup →
      (sk, v) ∈ file → parseKey sk = k →
      dlookup k (load_q_value file t) = some v) := by
  constructor
  · intro v hv hnot
    rw [dlookup_load_not_mem file t k hnot]
    exact hv
  · intro sk v hnd hmem hk
    exact dlookup_load_mem file t sk v k hnd hmem hk

/-- Witness for C10: loading a one-entry file (key `(0,0,0,0)`, vector
`[3]`) into a table holding key `(1,0,0,0)` with vector `[7]` keeps the
untouched key's vector and stores the file's vector under its key. -/
theorem load_q_value_merges_witness :
    dlookup (castKey (1, 0, 0, 0))
      (load_q_value [(renderKey (0, 0, 0, 0), [3])]
        [(castKey (1, 0, 0, 0), [7])]) = some [7] ∧
    dlookup (castKey (0, 0, 0, 0))
      (load_q_value [(renderKey (0, 0, 0, 0), [3])]
        [(castKey (1, 0, 0, 0), [7])]) = some [3] := by
  constructor
  · refine (load_q_value_merges [(renderKey (0, 0, 0, 0), [3])]
      [(castKey (1, 0, 0, 0), [7])] (castKey (1, 0, 0, 0))).1 [7]
      (by simp [dlookup]) ?_
    intro e he
    rw [List.mem_singleton] at he
    subst he
    rw [parseKey_renderKey]
    intro hc
    exact absurd (castKey_injective hc) (by decide)
  · exact (load_q_value_merges [(renderKey (0, 0, 0, 0), [3])]
      [(castKey (1, 0, 0, 0), [7])] (castKey (0, 0, 0, 0))).2
      (renderKey (0, 0, 0, 0)) [3] (by simp) (by simp)
      (parseKey_renderKey (0, 0, 0, 0))

end Persist
